import Mathlib

/-!
Verification of `prediction_utils.py` (class `PredictionUtils`) from the
ML-Predictions repository.

Modelling conventions:

* A scalar cell value of the dataset is `Option ℚ`: `none` models the
  missing-value marker `NaN`, `some q` models an ordinary numeric value.
  (The Python code only branches on `np.isnan`; all remaining arithmetic
  is exact here, floating point rounding is not modelled.)
* A dataframe is a list of rows; where a function only touches one column
  the row type is specialised to that column's value.
* `pandas`/`numpy` reductions that yield `NaN` on empty input (such as
  `Series.mean()` of an empty series) are modelled as `Option`-valued
  functions returning `none` on empty input.
* Python's `int(...)` applied to a non-negative real is `Int.floor`.
* `math.sqrt` / `scipy.spatial.distance.euclidean` on exact squares is
  `Rat.sqrt`, which is exact on squares of rationals.
-/

namespace PredictionUtils

/-- A dataset cell: `none` is the missing-value marker `NaN`. -/
abbrev Value := Option ℚ

/-- The constant `2**5` returned by both distance functions when either
compared value is missing (source comment: "high number so exclude when
sort (infinity as integer 2**100000)"). -/
def missingDistanceSentinel : ℚ := 2 ^ 5

/-- Embedding of `calc_euclidean_dist(self, val1, val2)`:
`if np.isnan(val1) or np.isnan(val2): return 2**5` and otherwise
`return int(math.sqrt(abs(val1 - val2)**2))`; `int` on the non-negative
square root is the floor. -/
def calc_euclidean_dist (val1 val2 : Value) : ℚ :=
  match val1, val2 with
  | none, _ => missingDistanceSentinel
  | some _, none => missingDistanceSentinel
  | some v1, some v2 => ((⌊Rat.sqrt (|v1 - v2| ^ 2)⌋ : ℤ) : ℚ)

/-- Embedding of `calc_euclidean_dist_using_scipy(self, val1, val2)`:
the same `NaN` guard, then `distance.euclidean(val1, val2)`, which on
scalars is `sqrt((val1 - val2)**2)` with no integer truncation. -/
def calc_euclidean_dist_using_scipy (val1 val2 : Value) : ℚ :=
  match val1, val2 with
  | none, _ => missingDistanceSentinel
  | some _, none => missingDistanceSentinel
  | some v1, some v2 => Rat.sqrt ((v1 - v2) ^ 2)

/-- Embedding of `compare_observations(self, obs1, obs2)`:
`obs2.apply(lambda x: self.calc_euclidean_dist_using_scipy(x, obs1))`. -/
def compare_observations (obs1 : Value) (obs2 : List Value) : List ℚ :=
  obs2.map (fun x => calc_euclidean_dist_using_scipy x obs1)

theorem rat_sqrt_sq (q : ℚ) : Rat.sqrt (q ^ 2) = |q| := by
  rw [pow_two, Rat.sqrt_eq]

theorem calc_euclidean_dist_some_some (v1 v2 : ℚ) :
    calc_euclidean_dist (some v1) (some v2) = ((⌊|v1 - v2|⌋ : ℤ) : ℚ) := by
  simp only [calc_euclidean_dist, rat_sqrt_sq, abs_abs]

theorem scipy_dist_some_some (v1 v2 : ℚ) :
    calc_euclidean_dist_using_scipy (some v1) (some v2) = |v1 - v2| := by
  simp only [calc_euclidean_dist_using_scipy, sq_abs, rat_sqrt_sq, abs_abs]

/-- C1 (counterexample): at `val1 = 1/2`, `val2 = 0` (neither missing),
`calc_euclidean_dist` returns `0`, not the absolute difference `1/2`:
the `int(...)` cast truncates fractional distances. -/
theorem calc_euclidean_dist_not_abs_sub :
    calc_euclidean_dist (some (1 / 2)) (some 0) = 0 ∧
      (0 : ℚ) ≠ |(1 / 2 : ℚ) - 0| := by
  have habs : |(1 / 2 : ℚ) - 0| = 1 / 2 := by
    rw [sub_zero, abs_of_nonneg (by norm_num : (0 : ℚ) ≤ 1 / 2)]
  constructor
  · rw [calc_euclidean_dist_some_some, habs]
    norm_num
  · rw [habs]
    norm_num

/-- C1 (amended): for every pair of non-missing scalar values, the
Distance Engine function `calc_euclidean_dist` returns the integer floor
(Python `int(...)` truncation) of the absolute difference `|val1 - val2|`;
in particular it equals `|val1 - val2|` exactly whenever that difference
is a whole number. -/
theorem calc_euclidean_dist_eq_floor_abs_sub (v1 v2 : ℚ) :
    calc_euclidean_dist (some v1) (some v2) = ((⌊|v1 - v2|⌋ : ℤ) : ℚ) ∧
      (∀ z : ℤ, |v1 - v2| = (z : ℚ) →
        calc_euclidean_dist (some v1) (some v2) = |v1 - v2|) := by
  refine ⟨calc_euclidean_dist_some_some v1 v2, ?_⟩
  intro z hz
  rw [calc_euclidean_dist_some_some, hz]
  norm_num

/-- C1 (witness): the amended theorem applied at the concrete pair
`(3, 1)`, whose absolute difference `2` is a whole number, so the floor
and the exact absolute difference coincide there. -/
theorem calc_euclidean_dist_eq_floor_abs_sub_witness :
    calc_euclidean_dist (some 3) (some 1) = ((⌊|(3 : ℚ) - 1|⌋ : ℤ) : ℚ) ∧
      calc_euclidean_dist (some 3) (some 1) = |(3 : ℚ) - 1| :=
  ⟨(calc_euclidean_dist_eq_floor_abs_sub 3 1).1,
    (calc_euclidean_dist_eq_floor_abs_sub 3 1).2 2 (by norm_num)⟩

/-- C3 (code evaluation): a missing value yields the fixed sentinel
`2**5 = 32`, but the sentinel is not larger than every distance a valid
pair can produce: the non-missing pair `(0, 100)` yields distance `100`,
which exceeds the sentinel, contradicting the source's own comment that
the sentinel stands for infinity (`2**100000`). -/
theorem calc_euclidean_dist_sentinel_exceeded :
    calc_euclidean_dist none (some 0) = missingDistanceSentinel ∧
      calc_euclidean_dist (some 0) (some 100) = 100 ∧
      missingDistanceSentinel < 100 := by
  refine ⟨rfl, ?_, by norm_num [missingDistanceSentinel]⟩
  rw [calc_euclidean_dist_some_some]
  norm_num

/-- C9 (counterexample): the two distance implementations disagree at
`val1 = 1/2`, `val2 = 0`: `calc_euclidean_dist` truncates to `0` while
the scipy-based variant returns `1/2`. -/
theorem dist_implementations_disagree :
    calc_euclidean_dist (some (1 / 2)) (some 0) ≠
      calc_euclidean_dist_using_scipy (some (1 / 2)) (some 0) := by
  rw [calc_euclidean_dist_some_some, scipy_dist_some_some]
  rw [show |(1 / 2 : ℚ) - 0| = 1 / 2 by
    rw [sub_zero, abs_of_nonneg (by norm_num : (0 : ℚ) ≤ 1 / 2)]]
  norm_num

/-- C9 (amended): for every pair of values, `calc_euclidean_dist` equals
the integer floor of `calc_euclidean_dist_using_scipy`; the two agree
whenever either value is missing (both return the sentinel) or the
absolute difference is a whole number, and only differ by the fractional
truncation otherwise. -/
theorem calc_euclidean_dist_eq_floor_scipy (v1 v2 : Value) :
    calc_euclidean_dist v1 v2 =
      ((⌊calc_euclidean_dist_using_scipy v1 v2⌋ : ℤ) : ℚ) := by
  match v1, v2 with
  | none, v2 =>
      simp only [calc_euclidean_dist, calc_euclidean_dist_using_scipy]
      norm_num [missingDistanceSentinel]
  | some v1, none =>
      simp only [calc_euclidean_dist, calc_euclidean_dist_using_scipy]
      norm_num [missingDistanceSentinel]
  | some v1, some v2 =>
      rw [calc_euclidean_dist_some_some, scipy_dist_some_some]

/-- Embedding of `pandas.Series.mean()`: the arithmetic mean of the
entries, or the missing-value marker `NaN` (here `none`) when the series
is empty. -/
def listMean (l : List ℚ) : Option ℚ :=
  if l.isEmpty then none else some (l.sum / l.length)

/-- Embedding of `calc_mean_absolute_error(self, df, model_feature_name)`:
each row contributes `|actual - predicted|` (its `TARGET_COLUMN` value
versus its `predicted_<target>_<feature>` column value), then `.mean()`.
A row is abstracted to its `(actual, predicted)` pair. -/
def calc_mean_absolute_error (df : List (ℚ × ℚ)) : Option ℚ :=
  listMean (df.map (fun row => |row.1 - row.2|))

/-- Embedding of `calc_mean_squared_error(self, df, model_feature_name)`:
each row contributes `(actual - predicted)**2`, then `.mean()`. -/
def calc_mean_squared_error (df : List (ℚ × ℚ)) : Option ℚ :=
  listMean (df.map (fun row => (row.1 - row.2) ^ 2))

/-- Embedding of `calc_root_mean_squared_error(self, df,
model_feature_name)`: `np.sqrt` of the mean squared error; `np.sqrt` of
the `NaN` produced by an empty mean is again `NaN` (`none`). -/
noncomputable def calc_root_mean_squared_error (df : List (ℚ × ℚ)) : Option ℝ :=
  (calc_mean_squared_error df).map (fun q => Real.sqrt (q : ℝ))

/-- C4: on an empty set of `(actual, predicted)` pairs each error metric
(MAE, MSE, RMSE) produces no numeric value: the empty-series mean is the
undefined marker, modelled `none`. -/
theorem error_metrics_undefined_on_empty :
    calc_mean_absolute_error [] = none ∧
      calc_mean_squared_error [] = none ∧
      calc_root_mean_squared_error [] = none := by
  refine ⟨rfl, rfl, ?_⟩
  simp [calc_root_mean_squared_error, calc_mean_squared_error, listMean]

/-- Embedding of `get_nearest_neighbors(self, df, model_feature_name)`:
`df.iloc[0:5][TARGET_COLUMN].mean()` — the mean target value of the first
five rows (fewer when the dataframe is shorter; `iloc` slicing clamps).
The dataframe is abstracted to the list of its `TARGET_COLUMN` values;
the `print` of the same mean is a console side effect, not modelled.
Note the row count is the hardcoded literal `5`: the function takes no
neighbor-count parameter. -/
def get_nearest_neighbors (df : List ℚ) : Option ℚ :=
  listMean (df.take 5)

theorem mul_length_le_sum (l : List ℚ) (c : ℚ) (h : ∀ x ∈ l, c ≤ x) :
    c * l.length ≤ l.sum := by
  induction l with
  | nil => simp
  | cons a t ih =>
      have ha : c ≤ a := h a (List.mem_cons_self a t)
      have ht : c * t.length ≤ t.sum := ih (fun x hx => h x (List.mem_cons_of_mem a hx))
      simp only [List.length_cons, List.sum_cons]
      push_cast
      calc c * (t.length + 1) = c + c * t.length := by ring
        _ ≤ a + t.sum := add_le_add ha ht

theorem sum_le_mul_length (l : List ℚ) (c : ℚ) (h : ∀ x ∈ l, x ≤ c) :
    l.sum ≤ c * l.length := by
  induction l with
  | nil => simp
  | cons a t ih =>
      have ha : a ≤ c := h a (List.mem_cons_self a t)
      have ht : t.sum ≤ c * t.length := ih (fun x hx => h x (List.mem_cons_of_mem a hx))
      simp only [List.length_cons, List.sum_cons]
      push_cast
      calc a + t.sum ≤ c + c * t.length := add_le_add ha ht
        _ = c * (t.length + 1) := by ring

theorem listMean_mem_bounds (l : List ℚ) (h : l ≠ []) :
    ∃ m, listMean l = some m ∧
      l.minimum ≤ (m : WithTop ℚ) ∧ ((m : ℚ) : WithBot ℚ) ≤ l.maximum := by
  have hlen : (0 : ℚ) < l.length := by
    have := List.length_pos.mpr h
    exact_mod_cast this
  refine ⟨l.sum / l.length, ?_, ?_, ?_⟩
  · simp [listMean, List.isEmpty_iff, h]
  · obtain ⟨a, ha⟩ : ∃ a : ℚ, l.minimum = (a : WithTop ℚ) := by
      rcases hm : l.minimum with _ | a
      · exact absurd (List.minimum_eq_top.mp hm) h
      · exact ⟨a, rfl⟩
    have hmem : a ∈ l := List.minimum_mem ha
    have hle : ∀ x ∈ l, a ≤ x := fun x hx => List.minimum_le_of_mem hx ha
    have : a * l.length ≤ l.sum := mul_length_le_sum l a hle
    have : a ≤ l.sum / l.length := (le_div_iff₀ hlen).mpr this
    rw [ha]
    exact_mod_cast this
  · obtain ⟨b, hb⟩ : ∃ b : ℚ, l.maximum = (b : WithBot ℚ) := by
      rcases hm : l.maximum with _ | b
      · exact absurd (List.maximum_eq_bot.mp hm) h
      · exact ⟨b, rfl⟩
    have hmem : b ∈ l := List.maximum_mem hb
    have hle : ∀ x ∈ l, x ≤ b := fun x hx => List.le_maximum_of_mem hx hb
    have : l.sum ≤ b * l.length := sum_le_mul_length l b hle
    have : l.sum / l.length ≤ b := (div_le_iff₀ hlen).mpr this
    rw [hb]
    exact_mod_cast this

/-- C5 (counterexample): the claim fails at `k = 1` with the sorted
dataframe whose target column reads `[0, 10, 10, 10, 10]` (size `5 ≥ k`):
`get_nearest_neighbors` has no `k` parameter and averages the hardcoded
first five rows, returning `8`, while the mean of the first `k = 1` rows
is `0`. -/
theorem get_nearest_neighbors_ignores_k :
    get_nearest_neighbors [0, 10, 10, 10, 10] = some 8 ∧
      listMean (List.take 1 [0, 10, 10, 10, 10]) = some 0 ∧
      (8 : ℚ) ≠ 0 := by
  refine ⟨?_, ?_, by norm_num⟩
  · simp [get_nearest_neighbors, listMean]
    norm_num
  · simp [listMean]

/-- C5 (amended): `get_nearest_neighbors` returns the arithmetic mean of
the target-column values of the first `min(5, size)` rows — the neighbor
count is the hardcoded constant `5`, not a parameter `k`, and the `iloc`
slice clamps it to the dataframe size — and for every nonempty sorted
training dataframe this prediction lies within `[min(target),
max(target)]` of the selected rows. -/
theorem get_nearest_neighbors_mean_of_first_five (l : List ℚ) (h : l ≠ []) :
    ∃ m, get_nearest_neighbors l = some m ∧
      listMean (l.take 5) = some m ∧
      (l.take 5).minimum ≤ (m : WithTop ℚ) ∧
      ((m : ℚ) : WithBot ℚ) ≤ (l.take 5).maximum := by
  have htake : l.take 5 ≠ [] := by
    rw [Ne, List.take_eq_nil_iff]
    push_neg
    exact ⟨by norm_num, h⟩
  obtain ⟨m, hm, hmin, hmax⟩ := listMean_mem_bounds (l.take 5) htake
  exact ⟨m, hm, hm, hmin, hmax⟩

/-- C5 (witness): the amended theorem applied to the concrete dataframe
with target values `[1, 2, 3]`. -/
theorem get_nearest_neighbors_mean_of_first_five_witness :
    ∃ m, get_nearest_neighbors [1, 2, 3] = some m ∧
      listMean (List.take 5 [1, 2, 3]) = some m ∧
      (List.take 5 [(1 : ℚ), 2, 3]).minimum ≤ (m : WithTop ℚ) ∧
      ((m : ℚ) : WithBot ℚ) ≤ (List.take 5 [(1 : ℚ), 2, 3]).maximum :=
  get_nearest_neighbors_mean_of_first_five [1, 2, 3] (by simp)

/-- Embedding of `itertools.combinations(features, k)`: all length-`k`
subsequences of `features`, enumerated in the input order (entries whose
first element comes earlier in the input come first). -/
def combinations {α : Type} : Nat → List α → List (List α)
  | 0, _ => [[]]
  | _ + 1, [] => []
  | k + 1, x :: xs => ((combinations k xs).map (fun c => x :: c)) ++ combinations (k + 1) xs

/-- Embedding of `generate_combinations_of_features(self,
training_column_names)`. The guard is the strict test
`MIN_FEATURES_COMBO_LEN < len(features)`; inside it the loop
`i = MIN; while i >= 1 and i <= loop_count: append(combinations(features, i)); i += 1`
collects the combination lists for sizes `MIN, ..., loop_count` (and
nothing when `MIN < 1`), and `flatten_combo` (`sum(combos, [])`)
concatenates them. Otherwise the function prints an error diagnostic and
returns `[]`; the boolean component records whether that diagnostic was
printed (the function never raises). -/
def generate_combinations_of_features {α : Type} (minLen : Nat) (features : List α) :
    List (List α) × Bool :=
  let loopCount := features.length
  if minLen < loopCount then
    (if 1 ≤ minLen then
        ((List.range' minLen (loopCount - minLen + 1)).map
          (fun i => combinations i features)).flatten
      else [], false)
  else ([], true)

theorem mem_combinations {α : Type} :
    ∀ (k : Nat) (l c : List α), c ∈ combinations k l ↔ c.Sublist l ∧ c.length = k := by
  intro k l
  induction l generalizing k with
  | nil =>
      intro c
      match k with
      | 0 =>
          simp only [combinations, List.mem_singleton, List.sublist_nil, List.length_eq_zero]
          constructor
          · rintro rfl; exact ⟨rfl, rfl⟩
          · rintro ⟨rfl, _⟩; rfl
      | k + 1 =>
          simp only [combinations, List.not_mem_nil, false_iff, not_and, List.sublist_nil]
          rintro rfl
          simp
  | cons x xs ih =>
      intro c
      match k with
      | 0 =>
          simp only [combinations, List.mem_singleton, List.length_eq_zero]
          constructor
          · rintro rfl; exact ⟨List.nil_sublist _, rfl⟩
          · rintro ⟨_, rfl⟩; rfl
      | k + 1 =>
          simp only [combinations, List.mem_append, List.mem_map, ih, List.sublist_cons_iff]
          constructor
          · rintro (⟨c', ⟨hs, hl⟩, rfl⟩ | ⟨hs, hl⟩)
            · exact ⟨Or.inr ⟨c', rfl, hs⟩, by simp [hl]⟩
            · exact ⟨Or.inl hs, hl⟩
          · rintro ⟨hs | ⟨r, rfl, hr⟩, hl⟩
            · exact Or.inr ⟨hs, hl⟩
            · exact Or.inl ⟨r, ⟨hr, by simpa using hl⟩, rfl⟩

theorem combinations_nodup {α : Type} :
    ∀ (k : Nat) (l : List α), l.Nodup → (combinations k l).Nodup := by
  intro k l
  induction l generalizing k with
  | nil =>
      intro _
      match k with
      | 0 => simp [combinations]
      | k + 1 => simp [combinations]
  | cons x xs ih =>
      intro h
      have hx : x ∉ xs := (List.nodup_cons.mp h).1
      have hxs : xs.Nodup := (List.nodup_cons.mp h).2
      match k with
      | 0 => simp [combinations]
      | k + 1 =>
          refine List.Nodup.append ?_ (ih (k + 1) hxs) ?_
          · exact (ih k hxs).map (fun a b hab => by injection hab)
          · intro c hc hc'
            obtain ⟨c', _, rfl⟩ := List.mem_map.mp hc
            have hsub : (x :: c').Sublist xs := (mem_combinations (k + 1) xs _).mp hc' |>.1
            exact hx (hsub.subset (List.mem_cons_self x c'))

/-- C2 (counterexample): with features `[A, B]` and minimum length
`L = 2 = N`, the guard `MIN_FEATURES_COMBO_LEN < len(features)` is
strict, so the generator returns the empty sequence instead of the
single full combination `[(A, B)]` that the claim requires for
`1 ≤ L ≤ N`. -/
theorem generate_combinations_rejects_full_length :
    (generate_combinations_of_features 2 ["A", "B"]).1 = [] ∧
      ([] : List (List String)) ≠ [["A", "B"]] := ⟨rfl, by simp⟩

/-- C2 (amended): for `1 ≤ L` and `L` strictly smaller than the number
`N` of training columns (the source's guard excludes `L = N`, where the
generator instead returns the empty sequence), the returned flattened
sequence contains exactly the order-insensitive subsets (subsequences in
input order) of sizes `L, ..., N`, with no repeats when the column names
are distinct, ordered by combination size, and no diagnostic is
emitted. -/
theorem generate_combinations_of_features_spec {α : Type} (L : Nat) (features : List α)
    (h1 : 1 ≤ L) (hN : L < features.length) :
    (∀ c, c ∈ (generate_combinations_of_features L features).1 ↔
        (c.Sublist features ∧ L ≤ c.length ∧ c.length ≤ features.length)) ∧
      (features.Nodup → (generate_combinations_of_features L features).1.Nodup) ∧
      (generate_combinations_of_features L features).1.Pairwise
        (fun c₁ c₂ => c₁.length ≤ c₂.length) ∧
      (generate_combinations_of_features L features).2 = false := by
  have hout : (generate_combinations_of_features L features).1 =
      ((List.range' L (features.length - L + 1)).map
        (fun i => combinations i features)).flatten := by
    simp [generate_combinations_of_features, hN, h1]
  have hflag : (generate_combinations_of_features L features).2 = false := by
    simp [generate_combinations_of_features, hN]
  refine ⟨?_, ?_, ?_, hflag⟩
  · intro c
    rw [hout]
    simp only [List.mem_flatten, List.mem_map]
    constructor
    · rintro ⟨_, ⟨i, hi, rfl⟩, hc⟩
      obtain ⟨hs, hl⟩ := (mem_combinations i features c).mp hc
      obtain ⟨hiL, hiN⟩ := List.mem_range'_1.mp hi
      exact ⟨hs, by omega, by omega⟩
    · rintro ⟨hs, hL, hN'⟩
      refine ⟨combinations c.length features, ⟨c.length, ?_, rfl⟩, ?_⟩
      · exact List.mem_range'_1.mpr ⟨hL, by omega⟩
      · exact (mem_combinations c.length features c).mpr ⟨hs, rfl⟩
  · intro hnd
    rw [hout]
    rw [List.nodup_flatten]
    constructor
    · rintro lc hlc
      obtain ⟨i, _, rfl⟩ := List.mem_map.mp hlc
      exact combinations_nodup i features hnd
    · rw [List.pairwise_map]
      refine (List.pairwise_lt_range' L _ 1 (by norm_num)).imp ?_
      intro i j hij c hci hcj
      have h1' := (mem_combinations i features c).mp hci
      have h2' := (mem_combinations j features c).mp hcj
      omega
  · rw [hout]
    rw [List.pairwise_flatten]
    constructor
    · intro lc hlc
      obtain ⟨i, _, rfl⟩ := List.mem_map.mp hlc
      refine List.pairwise_of_forall_mem_list ?_
      intro a ha b hb
      have := ((mem_combinations i features a).mp ha).2
      have := ((mem_combinations i features b).mp hb).2
      omega
    · rw [List.pairwise_map]
      refine (List.pairwise_lt_range' L _ 1 (by norm_num)).imp ?_
      intro i j hij a ha b hb
      have := ((mem_combinations i features a).mp ha).2
      have := ((mem_combinations j features b).mp hb).2
      omega

/-- C2 (witness): the amended theorem applied at minimum length `2` over
the three features `[A, B, C]`, together with the exact enumeration the
claim lists: `[(A, B), (A, C), (B, C), (A, B, C)]`, in size-then-input
order. -/
theorem generate_combinations_of_features_spec_witness :
    ((∀ c, c ∈ (generate_combinations_of_features 2 ["A", "B", "C"]).1 ↔
        (c.Sublist ["A", "B", "C"] ∧ 2 ≤ c.length ∧ c.length ≤ 3)) ∧
      ((["A", "B", "C"] : List String).Nodup →
        (generate_combinations_of_features 2 ["A", "B", "C"]).1.Nodup) ∧
      (generate_combinations_of_features 2 ["A", "B", "C"]).1.Pairwise
        (fun c₁ c₂ => c₁.length ≤ c₂.length) ∧
      (generate_combinations_of_features 2 ["A", "B", "C"]).2 = false) ∧
      (generate_combinations_of_features 2 ["A", "B", "C"]).1 =
        [["A", "B"], ["A", "C"], ["B", "C"], ["A", "B", "C"]] := by
  refine ⟨?_, by decide⟩
  have := generate_combinations_of_features_spec 2 (["A", "B", "C"] : List String)
    (by norm_num) (by simp)
  simpa using this

/-- C8: when the minimum combination length exceeds the number of
training columns, the generator returns the empty sequence and emits the
error diagnostic; it is a total function, so no exception is raised and
callers can detect the no-candidates condition from the empty result. -/
theorem generate_combinations_min_too_long {α : Type} (minLen : Nat) (features : List α)
    (h : features.length < minLen) :
    generate_combinations_of_features minLen features = ([], true) := by
  rw [generate_combinations_of_features, if_neg]
  omega

/-- C8 (witness): minimum length `3` with two training columns yields
the empty sequence and the diagnostic. -/
theorem generate_combinations_min_too_long_witness :
    generate_combinations_of_features 3 ["A", "B"] = ([], true) :=
  generate_combinations_min_too_long 3 ["A", "B"] (by norm_num)

/-- Deterministic step of the pseudo-random generator. NumPy's global
MT19937 generator is abstracted by a congruential generator: only the
facts that it is a pure function of its state and that a seeded draw of
`permutation(n)` yields a permutation of `0, ..., n-1` are relied on,
both of which are NumPy's documented behaviour. -/
def lcgNext (s : Nat) : Nat := (1664525 * s + 1013904223) % 4294967296

/-- Embedding of `np.random.seed(n)`: the state the global generator is
reset to, a function of the seed alone. -/
def npRandomSeed (n : Nat) : Nat := n

/-- Random shuffle of a list driven by generator state `s`: repeatedly
draw an index of the remaining elements and remove it (selection without
replacement), as `np.random.permutation` does. -/
def shuffle {α : Type} : Nat → List α → List α
  | _, [] => []
  | s, x :: xs =>
      (x :: xs).get ⟨s % (x :: xs).length, Nat.mod_lt _ (Nat.succ_pos xs.length)⟩ ::
        shuffle (lcgNext s) ((x :: xs).eraseIdx (s % (x :: xs).length))
  termination_by _ l => l.length
  decreasing_by
    simp only [List.length_eraseIdx, List.length_cons]
    have hm : s % (xs.length + 1) < xs.length + 1 := Nat.mod_lt _ (Nat.succ_pos xs.length)
    simp only [hm, if_pos]
    omega

/-- Embedding of `np.random.permutation(n)` under generator state `s`:
a shuffle of the index array `[0, ..., n-1]`. -/
def np_random_permutation (s : Nat) (n : Nat) : List Nat := shuffle s (List.range n)

/-- Embedding of `df.loc[idxs]` over the default integer range index:
the rows whose positional labels are listed, in that order. -/
def selectRows {α : Type} (df : List α) (idxs : List Nat) : List α :=
  idxs.filterMap (fun i => df[i]?)

/-- Embedding of `randomise_dataframe_rows(self, df)`:
`np.random.seed(1)` overwrites the global generator state — discarding
the incoming state `rngState` — and
`df.loc[np.random.permutation(len(df))]` reorders the rows by the drawn
permutation. -/
def randomise_dataframe_rows {α : Type} (_rngState : Nat) (df : List α) : List α :=
  let s := npRandomSeed 1
  selectRows df (np_random_permutation s df.length)

/-- Embedding of `sort_dataframe_by_feature(self, df, feature)`:
`df.sort_values(feature)` reorders the rows ascending by the feature
column's value (here `feature` is the column read as a function of the
row). pandas guarantees the output is a sorted permutation of the rows;
its default `quicksort` leaves the relative order of tied rows
unspecified, so of this concrete merge-sort model only the
tie-insensitive properties (sortedness, row preservation) are faithful
to the source. -/
def sort_dataframe_by_feature {α : Type} (feature : α → ℚ) (df : List α) : List α :=
  df.mergeSort (fun r₁ r₂ => decide (feature r₁ ≤ feature r₂))

/-- C7: `randomise_dataframe_rows` is deterministic across runs: the
global generator state at entry is irrelevant because the function
reseeds with the fixed seed `1`, so any two invocations on the same
dataframe produce the identical shuffled row order. -/
theorem randomise_dataframe_rows_deterministic {α : Type} (s₁ s₂ : Nat) (df : List α) :
    randomise_dataframe_rows s₁ df = randomise_dataframe_rows s₂ df := rfl

theorem perm_get_cons_eraseIdx {α : Type} :
    ∀ (l : List α) (i : Nat) (h : i < l.length),
      l.Perm (l.get ⟨i, h⟩ :: l.eraseIdx i)
  | x :: xs, 0, _ => by simp
  | x :: xs, i + 1, h => by
      have h' : i < xs.length := by
        have := Nat.lt_of_succ_lt_succ (by simpa using h)
        exact this
      have ih := perm_get_cons_eraseIdx xs i h'
      have step1 : (x :: xs).Perm (x :: (xs.get ⟨i, h'⟩ :: xs.eraseIdx i)) := ih.cons x
      have step2 : (x :: (xs.get ⟨i, h'⟩ :: xs.eraseIdx i)).Perm
          (xs.get ⟨i, h'⟩ :: x :: xs.eraseIdx i) := List.Perm.swap _ _ _
      exact step1.trans step2

theorem shuffle_perm_of_le {α : Type} :
    ∀ (n s : Nat) (l : List α), l.length ≤ n → (shuffle s l).Perm l := by
  intro n
  induction n with
  | zero =>
      intro _s l h
      match l with
      | [] => simp [shuffle]
      | x :: xs => simp at h
  | succ n ih =>
      intro s l h
      match l with
      | [] => simp [shuffle]
      | x :: xs =>
          rw [shuffle]
          have hi : s % (x :: xs).length < (x :: xs).length :=
            Nat.mod_lt _ (Nat.succ_pos xs.length)
          have hperm := perm_get_cons_eraseIdx (x :: xs) (s % (x :: xs).length) hi
          have hlen : ((x :: xs).eraseIdx (s % (x :: xs).length)).length ≤ n := by
            rw [List.length_eraseIdx]
            simp only [hi, if_pos]
            simp only [List.length_cons] at h ⊢
            omega
          have ih' := ih (lcgNext s) ((x :: xs).eraseIdx (s % (x :: xs).length)) hlen
          exact (ih'.cons _).trans hperm.symm

theorem shuffle_perm {α : Type} (s : Nat) (l : List α) : (shuffle s l).Perm l :=
  shuffle_perm_of_le l.length s l le_rfl

theorem selectRows_range {α : Type} : ∀ (df : List α),
    selectRows df (List.range df.length) = df := by
  intro df
  induction df with
  | nil => rfl
  | cons x xs ih =>
      simp only [selectRows, List.length_cons, List.range_succ_eq_map]
      rw [List.filterMap_cons]
      simp only [List.getElem?_cons_zero, List.filterMap_map]
      rw [show ((fun i => (x :: xs)[i]?) ∘ Nat.succ) = (fun i => xs[i]?) from
        funext fun i => by simp]
      rw [show (List.filterMap (fun i => xs[i]?) (List.range xs.length)) = xs from ih]

theorem selectRows_perm {α : Type} (df : List α) (idxs : List Nat)
    (h : idxs.Perm (List.range df.length)) : (selectRows df idxs).Perm df := by
  have hfm := h.filterMap (fun i => df[i]?)
  rw [show List.filterMap (fun i => df[i]?) (List.range df.length) = df from
    selectRows_range df] at hfm
  exact hfm

/-- C10: both row-reordering operations preserve the dataset's contents:
for every generator state and dataframe, `randomise_dataframe_rows`
returns a permutation of the input rows, and for every feature column so
does `sort_dataframe_by_feature` — same row count and same multiset of
rows, no row added, dropped, or modified. -/
theorem row_reordering_preserves_rows {α : Type} (s : Nat) (feature : α → ℚ) (df : List α) :
    ((randomise_dataframe_rows s df).Perm df ∧
      (randomise_dataframe_rows s df).length = df.length ∧
      ((randomise_dataframe_rows s df : List α) : Multiset α) = (df : Multiset α)) ∧
    ((sort_dataframe_by_feature feature df).Perm df ∧
      (sort_dataframe_by_feature feature df).length = df.length ∧
      ((sort_dataframe_by_feature feature df : List α) : Multiset α) = (df : Multiset α)) := by
  have h1 : (randomise_dataframe_rows s df).Perm df :=
    selectRows_perm df _ (shuffle_perm (npRandomSeed 1) (List.range df.length))
  have h2 : (sort_dataframe_by_feature feature df).Perm df :=
    List.mergeSort_perm df _
  exact ⟨⟨h1, h1.length_eq, Multiset.coe_eq_coe.mpr h1⟩,
    ⟨h2, h2.length_eq, Multiset.coe_eq_coe.mpr h2⟩⟩

end PredictionUtils
